import Mathlib

/-!
# Verification of the console-media-tools catalog engine

Shallow embedding of the catalog scripts (`catalog_files.py`,
`update_catalog_locations.py`, `find_noncatalog_files.py`) and proofs of the
specification claims about duplicate scoring, grouping, reconciliation,
scanning skip rules, and catalog commits.

Conventions of the embedding:
* Python strings are Lean `String`s; byte sizes are `Nat`; scores are `Int`.
* Python `round` (banker's rounding, round-half-to-even) is `pythonRound`
  over exact rationals.
* The content hash (`hash_file`, xxhash over the file bytes) is an opaque
  parameter `H : List Nat → String` applied to a file's byte content; the
  scripts only rely on it being a deterministic function of the content.
* The filesystem is a parameter `ex : String → Bool` telling whether a full
  path currently exists on disk (`os.path.exists`).
* Python dicts keyed by hash are association lists `List (String × CatEntry)`
  (JSON-loaded dicts have unique keys; insertion appends).
-/

namespace CatalogTools

/-- Python `round` applied to the exact rational `num/den` (callers pass
`den > 0`): round half to even.  `/` and `%` on `ℤ` are Euclidean, so for a
positive denominator `num / den` is the floor and `num % den / den` the
fractional part; the fraction is compared with one half by cross
multiplication. -/
def pythonRound (num den : ℤ) : ℤ :=
  let fl : ℤ := num / den
  let rem : ℤ := num % den
  if 2 * rem < den then fl
  else if den < 2 * rem then fl + 1
  else if fl % 2 = 0 then fl else fl + 1

/-- `s.count(c)` for a single character, from Python `str.count`. -/
def countChar (s : String) (c : Char) : ℕ := s.data.count c

/-- `os.path.split`: split off everything after the last slash; the head has
its trailing slashes stripped unless it consists only of slashes. -/
def osPathSplit (p : String) : String × String :=
  let cs := p.data
  let tail := (cs.reverse.takeWhile (fun c => c ≠ '/')).reverse
  let head0 := cs.take (cs.length - tail.length)
  let head := if head0.all (fun c => c = '/') then head0
              else (head0.reverse.dropWhile (fun c => c = '/')).reverse
  (String.mk head, String.mk tail)

/-- Python `s.startswith(pre)`, via character lists (kernel-computable). -/
def strStartsWith (s pre : String) : Bool := pre.data.isPrefixOf s.data

/-- Python `s.endswith(suf)`, via character lists (kernel-computable). -/
def strEndsWith (s suf : String) : Bool := suf.data.isSuffixOf s.data

/-- `s.lstrip('/')`. -/
def lstripSlash (s : String) : String := String.mk (s.data.dropWhile (fun c => c = '/'))

/-- `os.path.join(a, b)` for the cases the scripts exercise. -/
def pathJoin (a b : String) : String :=
  if strStartsWith b "/" then b
  else if a = "" ∨ strEndsWith a "/" then a ++ b
  else a ++ "/" ++ b

/-- Number of characters of `s` satisfying Python `str.isalpha`
(ASCII letters; the repository's filenames under test are ASCII). -/
def alphaCount (s : String) : ℕ := s.data.countP (fun c => c.isAlpha)

/-- Character class `[a-zA-Z0-9._-]` from the regex in `IsPortableFilename`. -/
def isAllowedChar (c : Char) : Bool := c.isAlpha || c.isDigit || c = '.' || c = '_' || c = '-'

/-- `IsPortableFilename` from `catalog_files.py` lines 460-464.  The code runs
`re.match("[^a-zA-Z0-9._-]", tail)`, and `re.match` anchors at position 0, so
only the FIRST character of the filename part is tested: the result is true
iff the filename is empty or its first character is in the allowed class. -/
def IsPortableFilename (fname : String) : Bool :=
  let tail := (osPathSplit fname).2
  match tail.data with
  | [] => true
  | c :: _ => isAllowedChar c

/-- A duplicate candidate, the dict `{"fp": ..., "cat": ...}` of the
`duplicates` list in `catalog_files.py`. -/
structure DupeItem where
  fp : String
  cat : Bool
  deriving DecidableEq, Repr

/-- Directory components: `p.lstrip('/').split('/')` from `AnalyzeDupes`. -/
def dirChunks (p : String) : List String :=
  ((lstripSlash p).data.splitOn '/').map String.mk

/-- `"/" + "/".join(p_chunks[0:c+1])`: the directory prefix at depth `c`. -/
def prefixPath (chunks : List String) (c : ℕ) : String :=
  "/" ++ String.intercalate "/" (chunks.take (c + 1))

/-- The per-candidate score computed inside `AnalyzeDupes`
(`catalog_files.py` lines 473-503), translated statement by statement. -/
def scoreItem (favored : List String) (d : DupeItem) : ℤ :=
  let pf := osPathSplit d.fp
  let f := pf.2
  let s0 : ℤ := 15 - (countChar d.fp '/' : ℤ)
  let s1 : ℤ := if d.cat then s0 + 5 else s0
  let s2 : ℤ := s1 + pythonRound ((alphaCount f : ℤ) * 10) (f.length : ℤ)
  let s3 : ℤ := if IsPortableFilename d.fp then s2 + 4 else s2
  if favored.contains d.fp then s3 + 1000
  else
    let chunks := dirChunks pf.1
    let n := chunks.length
    (List.range n).foldl
      (fun s c =>
        if favored.contains (prefixPath chunks c) then
          s + pythonRound (((c : ℤ) + 1) * 100) (n : ℤ)
        else s)
      s3

/-- A candidate after `AnalyzeDupes` has run: the same dict, now carrying the
score key `s` and the removal flag `r` (`keep` is the negation of `r`). -/
structure ScoredItem where
  fp : String
  cat : Bool
  s : ℤ
  r : Bool
  deriving DecidableEq, Repr

/-- The highest-score search of `AnalyzeDupes` (lines 505-511): running pair
(highest_score, highest_index), initialised to (0, 0), updated on strict
improvement only. -/
def pickAux : List ℤ → ℕ → ℤ → ℕ → ℤ × ℕ
  | [], _, hs, hi => (hs, hi)
  | s :: rest, i, hs, hi =>
      if hs < s then pickAux rest (i + 1) s i else pickAux rest (i + 1) hs hi

/-- Index selected as the keeper within one group. -/
def pickHighest (scores : List ℤ) : ℕ := (pickAux scores 0 0 0).2

/-- `AnalyzeDupes` restricted to a single group: score every candidate, find
the highest-scoring index, set `r` (remove) on every other index. -/
def analyzeGroup (favored : List String) (dupes : List DupeItem) : List ScoredItem :=
  let scored := dupes.map (fun d => (d, scoreItem favored d))
  let hi := pickHighest (scored.map Prod.snd)
  scored.enum.map (fun p => ⟨p.2.1.fp, p.2.1.cat, p.2.2, p.1 != hi⟩)

/-- `AnalyzeDupes` over the whole `duplicates` list. -/
def AnalyzeDupes (favored : List String) (duplicates : List (List DupeItem)) :
    List (List ScoredItem) :=
  duplicates.map (analyzeGroup favored)

/-- `RemoveDupes` (lines 521-526): append the path of every candidate flagged
`r` to the accumulated `to_be_removed` list. -/
def RemoveDupes (analyzed : List (List ScoredItem)) (acc : List String) : List String :=
  analyzed.foldl (fun a g => g.foldl (fun a2 d => if d.r then a2 ++ [d.fp] else a2) a) acc

/-- A catalog entry value `{"f": ..., "p": ..., "s": ...}`. -/
structure CatEntry where
  f : String
  p : String
  s : ℕ
  deriving DecidableEq, Repr

/-- A scan record (item of `new_data`): `{"h", "f", "p", "s"}`. -/
structure Rec where
  h : String
  f : String
  p : String
  s : ℕ
  deriving DecidableEq, Repr

/-- Full path of a scan record, `os.path.join(i['p'], i['f'])`. -/
def fullp (i : Rec) : String := pathJoin i.p i.f

/-- Dict lookup `catalog[hash]` on the association-list model (keys are
unique in a JSON-loaded dict, so first match suffices). -/
def catLookup : List (String × CatEntry) → String → Option CatEntry
  | [], _ => none
  | (k, v) :: rest, h => if k = h then some v else catLookup rest h

/-- Composite of building `catalog_index` (full path → hash, later entries
overwriting earlier ones, lines 66-69) and the dict lookup
`catalog[catalog_index[fullpath]]`. -/
def indexFindEntry (catalog : List (String × CatEntry)) (fp : String) :
    Option (String × CatEntry) :=
  catalog.foldl (fun acc q => if pathJoin q.2.p q.2.f = fp then some q else acc) none

/-- `catalog_list` of `update_catalog_locations.py` lines 56-61: the catalog
re-shaped as a list of records. -/
def catalogList (catalog : List (String × CatEntry)) : List Rec :=
  catalog.map (fun q => ⟨q.1, q.2.f, q.2.p, q.2.s⟩)

/-- The ignored-extension test `file.endswith(('.db', '.bak'))`. -/
def ignoredExt (f : String) : Bool := strEndsWith f ".db" || strEndsWith f ".bak"

/-- A file on disk as the traversal sees it: directory, name, size, bytes. -/
structure FSFile where
  p : String
  f : String
  s : ℕ
  content : List ℕ

/-- One iteration of the scan loop of `catalog_files.py` (lines 537-568) for
one discovered file.  Returns the updated `new_data` and whether `hash_file`
was invoked.  `H` is the content hash, `resume`-records already sit in `st`. -/
def cfScanStep (H : List ℕ → String) (catalog : List (String × CatEntry))
    (st : List Rec) (file : FSFile) : List Rec × Bool :=
  if ignoredExt file.f then (st, false)
  else
    let fullpath := pathJoin file.p file.f
    let sizeMatch :=
      match indexFindEntry catalog fullpath with
      | some q => file.s == q.2.s
      | none => false
    if sizeMatch then (st, false)
    else if st.any (fun i => fullp i = fullpath) then (st, false)
    else
      let hash := H file.content
      let item : Rec := ⟨hash, file.f, file.p, file.s⟩
      match catLookup catalog hash with
      | some c =>
          if c.f = item.f ∧ c.p = item.p ∧ c.s = item.s then (st, true)
          else (st ++ [item], true)
      | none => (st ++ [item], true)

/-- The whole scan loop: fold `cfScanStep` over the discovered files,
starting from the records resumed out of `wip.db`. -/
def cfScan (H : List ℕ → String) (catalog : List (String × CatEntry))
    (resume : List Rec) (files : List FSFile) : List Rec :=
  files.foldl (fun st f => (cfScanStep H catalog st f).1) resume

/-- `FindHashByFileAndSize` (`update_catalog_locations.py` lines 76-85):
size-unique match, then narrowing to entries whose recorded file is missing
on disk; empty string means the hash could not be deduced. -/
def FindHashByFileAndSize (ex : String → Bool) (catalog_list : List Rec)
    (size : ℕ) : String :=
  let subset := catalog_list.filter (fun i => i.s = size)
  match subset with
  | [i] => i.h
  | _ =>
      let ss2 := subset.filter (fun i => !ex (pathJoin i.p i.f))
      match ss2 with
      | [i] => i.h
      | _ => ""

/-- One iteration of the scan loop of `update_catalog_locations.py`
(lines 112-142).  Returns updated `new_data` and whether `hash_file` ran.
The Python line 140 compares the three-key dict `catalog[hash]` with the
four-key dict `item`, which is never equal, so the skip there never fires;
the embedding keeps the dead test as literal `false`. -/
def uclStep (H : List ℕ → String) (ex : String → Bool)
    (catalog : List (String × CatEntry)) (st : List Rec) (file : FSFile) :
    List Rec × Bool :=
  if ignoredExt file.f then (st, false)
  else
    let fullpath := pathJoin file.p file.f
    let sizeMatch :=
      match indexFindEntry catalog fullpath with
      | some q => file.s == q.2.s
      | none => false
    if sizeMatch then (st, false)
    else
      let hash0 := FindHashByFileAndSize ex (catalogList catalog) file.s
      let invoked := hash0 = ""
      let hash := if hash0 = "" then H file.content else hash0
      let item : Rec := ⟨hash, file.f, file.p, file.s⟩
      match catLookup catalog hash with
      | some _ => if false then (st, invoked) else (st ++ [item], invoked)
      | none => (st ++ [item], invoked)

/-- One iteration of the scan loop of `find_noncatalog_files.py`
(lines 88-112).  State is `(new_data, renamed)`; the flag says whether
`hash_file` ran. -/
def fncStep (H : List ℕ → String) (catalog : List (String × CatEntry))
    (st : List Rec × List Rec) (file : FSFile) :
    (List Rec × List Rec) × Bool :=
  if ignoredExt file.f then (st, false)
  else
    let fullpath := pathJoin file.p file.f
    let sizeMatch :=
      match indexFindEntry catalog fullpath with
      | some q => file.s == q.2.s
      | none => false
    if sizeMatch then (st, false)
    else
      let hash := H file.content
      let item : Rec := ⟨hash, file.f, file.p, file.s⟩
      if (catLookup catalog hash).isSome then ((st.1, st.2 ++ [item]), true)
      else ((st.1 ++ [item], st.2), true)

/-- Mutable state of the duplicate-identification loop of `catalog_files.py`
(lines 585-611): accounted-for paths, groups formed, early removals. -/
structure IdState where
  dupes : List String
  duplicates : List (List DupeItem)
  to_be_removed : List String
  deriving DecidableEq, Repr

/-- `matching` (line 606): records of this run with the same hash whose path
has not been accounted for yet, as scan-origin candidates. -/
def matchingOf (nd : List Rec) (dupesAcc : List String) (h : String) : List DupeItem :=
  (nd.filter (fun i => i.h == h && !dupesAcc.contains (fullp i))).map
    (fun i => ⟨fullp i, false⟩)

/-- One iteration of the duplicate-identification loop for one record of
`new_data`.  `includeCat` is `remove_catalog_dupes`; `ex` is disk existence. -/
def identifyStep (includeCat : Bool) (catalog : List (String × CatEntry))
    (ex : String → Bool) (nd : List Rec) (st : IdState) (file : Rec) : IdState :=
  let fullpath := fullp file
  if st.dupes.contains fullpath then st
  else
    match catLookup catalog file.h with
    | some o =>
        let cat_fp := pathJoin o.p o.f
        if !ex cat_fp then
          { st with to_be_removed := st.to_be_removed ++ [fullpath] }
        else
          let head := if includeCat then [(⟨cat_fp, true⟩ : DupeItem)] else []
          let matching := matchingOf nd st.dupes file.h
          { st with
              duplicates := st.duplicates ++ [head ++ matching],
              dupes := st.dupes ++ matching.map (fun d => d.fp) }
    | none =>
        let matching := matchingOf nd st.dupes file.h
        if matching.length < 2 then st
        else
          { st with
              duplicates := st.duplicates ++ [matching],
              dupes := st.dupes ++ matching.map (fun d => d.fp) }

/-- The whole duplicate-identification loop over `new_data`. -/
def identifyDuplicates (includeCat : Bool) (catalog : List (String × CatEntry))
    (ex : String → Bool) (nd : List Rec) : IdState :=
  nd.foldl (identifyStep includeCat catalog ex nd) ⟨[], [], []⟩

/-- `to_be_removed` after the review session finishes normally
(lines 615-691): `RemoveDupes` runs exactly once, and only when the
duplicates list is non-empty. -/
def reviewToBeRemoved (includeCat : Bool) (catalog : List (String × CatEntry))
    (ex : String → Bool) (nd : List Rec) (favored : List String) : List String :=
  let st := identifyDuplicates includeCat catalog ex nd
  if 0 < st.duplicates.length then
    RemoveDupes (AnalyzeDupes favored st.duplicates) st.to_be_removed
  else st.to_be_removed

/-- One iteration of the commit loop (lines 717-721): skip and report hashes
already present, otherwise insert.  Accumulator: (catalog, skipped hashes). -/
def commitStep (acc : List (String × CatEntry) × List String) (i : Rec) :
    List (String × CatEntry) × List String :=
  if (catLookup acc.1 i.h).isSome then (acc.1, acc.2 ++ [i.h])
  else (acc.1 ++ [(i.h, ⟨i.f, i.p, i.s⟩)], acc.2)

/-- The catalog commit step (lines 711-722): filter out removed paths, insert
the rest first-writer-wins, report `len(new_cat_entries)` as the added count.
Returns (new catalog, skipped hashes, reported added count). -/
def commitNew (catalog : List (String × CatEntry)) (nd : List Rec)
    (tbr : List String) : List (String × CatEntry) × List String × ℕ :=
  let nce := nd.filter (fun i => !tbr.contains (fullp i))
  let folded := nce.foldl commitStep (catalog, [])
  (folded.1, folded.2, nce.length)

/-- Externally visible effects of the module-level tail of
`catalog_files.py`: WIP checkpoint writes and deletion, user confirmations,
file deletions, and the catalog document write. -/
inductive Eff where
  | wipWrite : Eff
  | wipDelete : Eff
  | promptRemove : Eff
  | promptCommit : Eff
  | fileDelete : String → Eff
  | catalogWrite : Eff
  deriving DecidableEq, Repr

/-- The scan loop with its checkpointing (lines 537-576): a `wip.db` write
happens inside the loop right after an append whenever more than 10 seconds
elapsed (`tick n` abstracts that clock test at iteration `n`), and once more,
unconditionally, after the traversal completes (lines 575-576). -/
def cfScanEffects (H : List ℕ → String) (catalog : List (String × CatEntry))
    (resume : List Rec) (files : List FSFile) (tick : ℕ → Bool) :
    List Rec × List Eff :=
  let z := files.foldl
    (fun (acc : List Rec × List Eff × ℕ) f =>
      let st2 := (cfScanStep H catalog acc.1 f).1
      if st2 ≠ acc.1 ∧ tick acc.2.2 then (st2, acc.2.1 ++ [Eff.wipWrite], acc.2.2 + 1)
      else (st2, acc.2.1, acc.2.2 + 1))
    (resume, [], 0)
  (z.1, z.2.1 ++ [Eff.wipWrite])

/-- The module-level tail after the review (lines 694-730): confirm-and-delete
of `to_be_removed`, then commit of the surviving records, as an effect trace.
`ansRemove`/`ansCommit` are the user's yes/no answers (only consulted when the
corresponding prompt is shown). -/
def finalPhase (ex : String → Bool) (tbr : List String) (nd : List Rec)
    (ansRemove ansCommit : Bool) : List Eff :=
  let removalEffs :=
    if 0 < tbr.length then
      [Eff.promptRemove] ++
        (if ansRemove then (tbr.filter ex).map Eff.fileDelete else [])
    else []
  let nce := nd.filter (fun i => !tbr.contains (fullp i))
  let commitEffs :=
    if 0 < nce.length then
      [Eff.promptCommit] ++
        (if ansCommit then [Eff.catalogWrite, Eff.wipDelete] else [])
    else [Eff.wipDelete]
  removalEffs ++ commitEffs

/-!
## Definitions following the words of the specification claims

These are not translations of the source; they transcribe claim C2's formula
so it can be compared with `scoreItem`.
-/

/-- Claim C2's portable term: true iff the filename matches `[A-Za-z0-9._-]+`
exactly (every character allowed, at least one character). -/
def claimPortable (f : String) : Bool := f.length != 0 && f.data.all isAllowedChar

/-- Claim C2's favored bonus: 1000 on an exact full-path match, else the
bonus of the (at most one expected) matching directory prefix, found walking
from the root outward, else 0. -/
def claimFavoredBonus (favored : List String) (fp : String) : ℤ :=
  if favored.contains fp then 1000
  else
    let chunks := dirChunks (osPathSplit fp).1
    let n := chunks.length
    match (List.range n).find? (fun c => favored.contains (prefixPath chunks c)) with
    | some c => pythonRound (((c : ℤ) + 1) * 100) (n : ℤ)
    | none => 0

/-- Claim C2's score formula, term by term as the claim states it. -/
def claimScore (favored : List String) (d : DupeItem) : ℤ :=
  let f := (osPathSplit d.fp).2
  (15 - (countChar d.fp '/' : ℤ))
    + (if d.cat then 5 else 0)
    + pythonRound (10 * (alphaCount f : ℤ)) (f.length : ℤ)
    + (if claimPortable f then 4 else 0)
    + claimFavoredBonus favored d.fp

/-- The favored bonus as the code actually computes it, written as a sum:
1000 on an exact match, else the sum of `round(100*(c+1)/n)` over every
matching directory prefix depth `c` (the code adds one bonus per match). -/
def amendedFavoredBonus (favored : List String) (fp : String) : ℤ :=
  if favored.contains fp then 1000
  else
    let chunks := dirChunks (osPathSplit fp).1
    let n := chunks.length
    (((List.range n).filter (fun c => favored.contains (prefixPath chunks c))).map
      (fun (c : ℕ) => pythonRound (((c : ℤ) + 1) * 100) (n : ℤ))).sum

/-- Claim C2's formula amended to the code's behaviour: the portable term
tests only the first character of the filename, and the favored bonus sums
over every matching prefix. -/
def amendedScore (favored : List String) (d : DupeItem) : ℤ :=
  let f := (osPathSplit d.fp).2
  (15 - (countChar d.fp '/' : ℤ))
    + (if d.cat then 5 else 0)
    + pythonRound ((alphaCount f : ℤ) * 10) (f.length : ℤ)
    + (if IsPortableFilename d.fp then 4 else 0)
    + amendedFavoredBonus favored d.fp

/-- Favored set for the first C4 counterexample instance: every directory
prefix of `yPathC4` plus an exact rule for `/x/foo.txt`. -/
def favC4 : List String :=
  ["/a", "/a/b", "/a/b/c", "/a/b/c/d", "/a/b/c/d/e", "/a/b/c/d/e/f",
   "/a/b/c/d/e/f/g", "/a/b/c/d/e/f/g/h", "/a/b/c/d/e/f/g/h/i",
   "/a/b/c/d/e/f/g/h/i/j", "/a/b/c/d/e/f/g/h/i/j/k",
   "/a/b/c/d/e/f/g/h/i/j/k/l", "/a/b/c/d/e/f/g/h/i/j/k/l/m",
   "/a/b/c/d/e/f/g/h/i/j/k/l/m/n", "/a/b/c/d/e/f/g/h/i/j/k/l/m/n/o",
   "/a/b/c/d/e/f/g/h/i/j/k/l/m/n/o/p", "/a/b/c/d/e/f/g/h/i/j/k/l/m/n/o/p/q",
   "/a/b/c/d/e/f/g/h/i/j/k/l/m/n/o/p/q/r",
   "/a/b/c/d/e/f/g/h/i/j/k/l/m/n/o/p/q/r/s",
   "/a/b/c/d/e/f/g/h/i/j/k/l/m/n/o/p/q/r/s/t", "/x/foo.txt"]

/-- Sibling path sitting under twenty favored directory prefixes. -/
def yPathC4 : String := "/a/b/c/d/e/f/g/h/i/j/k/l/m/n/o/p/q/r/s/t/foo.txt"

/-- A path of `n+1` nested directories named `a` ending in the file `%`:
`mkDeep n = "/a/a/.../a/%"` with `n+1` separators (built as a character
list so that statements about very deep paths stay provable by induction). -/
def mkDeepChars : ℕ → List Char
  | 0 => ['/', '%']
  | n + 1 => '/' :: 'a' :: mkDeepChars n

/-- The deep path as a string. -/
def mkDeep (n : ℕ) : String := String.mk (mkDeepChars n)

/-- The bytes of `"hello"` (ASCII), the 5-byte content of the scenario. -/
def helloBytes : List ℕ := [104, 101, 108, 108, 111]

/-- The two files of the spec's example scenario: `/a/foo.txt` and
`/b/foo.txt`, both 5 bytes of `"hello"`. -/
def c5files : List FSFile :=
  [⟨"/a", "foo.txt", 5, helloBytes⟩, ⟨"/b", "foo.txt", 5, helloBytes⟩]

/-- The path deleted by a `fileDelete` effect, if any. -/
def effDeletedPath : Eff → Option String
  | Eff.fileDelete p => some p
  | _ => none

/-!
## Helper lemmas
-/

lemma le_foldl_max (l : List ℤ) (b : ℤ) : b ≤ l.foldl max b := by
  induction l generalizing b with
  | nil => exact le_refl b
  | cons x t ih =>
      simp only [List.foldl_cons]
      exact le_trans (le_max_left b x) (ih (max b x))

lemma mem_le_foldl_max (l : List ℤ) (b : ℤ) : ∀ a ∈ l, a ≤ l.foldl max b := by
  induction l generalizing b with
  | nil => intro a ha; cases ha
  | cons x t ih =>
      intro a ha
      simp only [List.foldl_cons]
      rcases List.mem_cons.mp ha with h | h
      · subst h; exact le_trans (le_max_right b a) (le_foldl_max t (max b a))
      · exact ih (max b x) a h

lemma foldl_max_of_all_le (l : List ℤ) (b : ℤ) (h : ∀ a ∈ l, a ≤ b) :
    l.foldl max b = b := by
  induction l with
  | nil => rfl
  | cons x t ih =>
      simp only [List.foldl_cons, max_eq_left (h x (List.mem_cons_self x t))]
      exact ih (fun a ha => h a (List.mem_cons_of_mem x ha))

lemma foldl_max_mem (l : List ℤ) (b : ℤ) : l.foldl max b = b ∨ l.foldl max b ∈ l := by
  induction l generalizing b with
  | nil => left; rfl
  | cons x t ih =>
      simp only [List.foldl_cons]
      rcases ih (max b x) with h | h
      · rcases max_choice b x with hm | hm
        · left; rw [h, hm]
        · right; rw [h, hm]; exact List.mem_cons_self x t
      · right; exact List.mem_cons_of_mem x h

lemma pickAux_all_le (l : List ℤ) :
    ∀ (i : ℕ) (hs : ℤ) (hi : ℕ), (∀ s ∈ l, s ≤ hs) → pickAux l i hs hi = (hs, hi) := by
  induction l with
  | nil => intro i hs hi _; rfl
  | cons x t ih =>
      intro i hs hi h
      have hx : ¬ hs < x := not_lt.mpr (h x (List.mem_cons_self x t))
      simp only [pickAux, if_neg hx]
      exact ih (i + 1) hs hi (fun s hsm => h s (List.mem_cons_of_mem x hsm))

lemma pickAux_idx (l : List ℤ) :
    ∀ (i : ℕ) (hs : ℤ) (hi : ℕ), (∃ s ∈ l, hs < s) →
      (pickAux l i hs hi).2 = i + List.indexOf (l.foldl max hs) l := by
  induction l with
  | nil =>
      rintro i hs hi ⟨s, hmem, _⟩
      cases hmem
  | cons x t ih =>
      intro i hs hi hex
      simp only [List.foldl_cons]
      by_cases hx : hs < x
      · simp only [pickAux, if_pos hx, max_eq_right (le_of_lt hx)]
        by_cases hex2 : ∃ s ∈ t, x < s
        · rw [ih (i + 1) x i hex2]
          have hM : x < t.foldl max x := by
            obtain ⟨r, hr, hxr⟩ := hex2
            exact lt_of_lt_of_le hxr (mem_le_foldl_max t x r hr)
          rw [List.indexOf_cons_ne t (ne_of_lt hM)]
          omega
        · push_neg at hex2
          rw [pickAux_all_le t (i + 1) x i hex2, foldl_max_of_all_le t x hex2,
            List.indexOf_cons_self x t]
          rfl
      · simp only [pickAux, if_neg hx, max_eq_left (not_lt.mp hx)]
        have hex2 : ∃ s ∈ t, hs < s := by
          obtain ⟨s, hmem, hlt⟩ := hex
          rcases List.mem_cons.mp hmem with rfl | hm
          · exact absurd hlt hx
          · exact ⟨s, hm, hlt⟩
        rw [ih (i + 1) hs hi hex2]
        have hM : hs < t.foldl max hs := by
          obtain ⟨r, hr, hlt⟩ := hex2
          exact lt_of_lt_of_le hlt (mem_le_foldl_max t hs r hr)
        have hne : x ≠ t.foldl max hs := ne_of_lt (lt_of_le_of_lt (not_lt.mp hx) hM)
        rw [List.indexOf_cons_ne t hne]
        omega

lemma pickHighest_of_all_le (scores : List ℤ) (h : ∀ s ∈ scores, s ≤ 0) :
    pickHighest scores = 0 := by
  unfold pickHighest
  rw [pickAux_all_le scores 0 0 0 h]

lemma pickHighest_of_pos (scores : List ℤ) (h : 0 < scores.foldl max 0) :
    pickHighest scores = List.indexOf (scores.foldl max 0) scores := by
  have hex : ∃ s ∈ scores, (0 : ℤ) < s := by
    rcases foldl_max_mem scores 0 with h0 | hm
    · rw [h0] at h; exact absurd h (lt_irrefl 0)
    · exact ⟨_, hm, h⟩
  unfold pickHighest
  rw [pickAux_idx scores 0 0 0 hex]
  exact Nat.zero_add _

lemma pickHighest_lt_length (scores : List ℤ) (hne : scores ≠ []) :
    pickHighest scores < scores.length := by
  by_cases h : 0 < scores.foldl max 0
  · rw [pickHighest_of_pos scores h]
    apply List.indexOf_lt_length.mpr
    rcases foldl_max_mem scores 0 with h0 | hm
    · rw [h0] at h; exact absurd h (lt_irrefl 0)
    · exact hm
  · have hall : ∀ s ∈ scores, s ≤ 0 :=
      fun s hs => le_trans (mem_le_foldl_max scores 0 s hs) (not_lt.mp h)
    rw [pickHighest_of_all_le scores hall]
    exact List.length_pos.mpr hne

lemma pythonRound_nonneg (num den : ℤ) (hnum : 0 ≤ num) (hden : 0 < den) :
    0 ≤ pythonRound num den := by
  have hfl : 0 ≤ num / den := Int.ediv_nonneg hnum (le_of_lt hden)
  simp only [pythonRound]
  split_ifs <;> linarith

lemma pythonRound_le (num den k : ℤ) (hden : 0 < den) (h : num ≤ k * den) :
    pythonRound num den ≤ k := by
  have hfl : num / den ≤ k := by
    have h2 := Int.ediv_le_ediv hden h
    rwa [Int.mul_ediv_cancel k (ne_of_gt hden)] at h2
  have heq : den * (num / den) + num % den = num := Int.ediv_add_emod num den
  have hr0 : 0 ≤ num % den := Int.emod_nonneg num (ne_of_gt hden)
  have key : 0 < num % den → num / den < k := by
    intro hrpos
    by_contra hcon
    push_neg at hcon
    have h2 : k * den ≤ num / den * den :=
      mul_le_mul_of_nonneg_right hcon (le_of_lt hden)
    have h3 : num / den * den = den * (num / den) := mul_comm _ _
    linarith
  simp only [pythonRound]
  split_ifs with h1 h2 h3
  · exact hfl
  · have := key (by linarith)
    linarith
  · exact hfl
  · have hh := not_lt.mp h1
    have := key (by linarith)
    linarith

lemma alphaTerm_nonneg (f : String) :
    0 ≤ pythonRound ((alphaCount f : ℤ) * 10) (f.length : ℤ) := by
  rcases Nat.eq_zero_or_pos f.length with h0 | hpos
  · have hd : f.data = [] := List.length_eq_zero.mp h0
    simp [alphaCount, hd, h0, pythonRound]
  · exact pythonRound_nonneg _ _ (by positivity) (by exact_mod_cast hpos)

lemma alphaTerm_le_ten (f : String) :
    pythonRound ((alphaCount f : ℤ) * 10) (f.length : ℤ) ≤ 10 := by
  rcases Nat.eq_zero_or_pos f.length with h0 | hpos
  · have hd : f.data = [] := List.length_eq_zero.mp h0
    simp [alphaCount, hd, h0, pythonRound]
  · apply pythonRound_le _ _ _ (by exact_mod_cast hpos)
    have hle : alphaCount f ≤ f.length := List.countP_le_length _
    have : (alphaCount f : ℤ) ≤ (f.length : ℤ) := by exact_mod_cast hle
    linarith

lemma foldl_if_add {α : Type} (p : α → Bool) (g : α → ℤ) :
    ∀ (l : List α) (a : ℤ),
      l.foldl (fun s c => if p c then s + g c else s) a =
        a + ((l.filter p).map g).sum := by
  intro l
  induction l with
  | nil => intro a; simp
  | cons x t ih =>
      intro a
      by_cases hx : p x <;>
        simp [List.foldl_cons, hx, ih, add_assoc]

/-!
## Claim C1
-/

/-- C1 (corrected): for every group and favored-path set, `AnalyzeDupes` gives
`keep=true` (removal flag `r=false`) to exactly one candidate, the one at
index `pickHighest`; that index is the first index attaining the maximum
score whenever the maximum is positive, but when every score is `≤ 0`
(possible: deep paths make the depth term negative) the FIRST candidate is
kept even if its score is not the highest, because the running maximum is
initialised to 0 and only strict improvements move the index. -/
theorem C1_keeper_selection (favored : List String) (dupes : List DupeItem)
    (hne : dupes ≠ []) :
    pickHighest (dupes.map (scoreItem favored)) < dupes.length ∧
    (∀ j : ℕ, (analyzeGroup favored dupes).get? j =
      (dupes.get? j).map (fun d =>
        ⟨d.fp, d.cat, scoreItem favored d,
          j != pickHighest (dupes.map (scoreItem favored))⟩)) ∧
    (0 < (dupes.map (scoreItem favored)).foldl max 0 →
      pickHighest (dupes.map (scoreItem favored)) =
        List.indexOf ((dupes.map (scoreItem favored)).foldl max 0)
          (dupes.map (scoreItem favored))) ∧
    ((∀ s ∈ dupes.map (scoreItem favored), s ≤ 0) →
      pickHighest (dupes.map (scoreItem favored)) = 0) := by
  refine ⟨?_, ?_, pickHighest_of_pos _, pickHighest_of_all_le _⟩
  · have : dupes.map (scoreItem favored) ≠ [] := by
      simpa using hne
    simpa using pickHighest_lt_length _ this
  · intro j
    have hmaps : List.map (Prod.snd ∘ fun d => (d, scoreItem favored d)) dupes =
        List.map (scoreItem favored) dupes := by
      simp [Function.comp]
    simp only [analyzeGroup, List.map_map, List.get?_map, List.get?_enum, hmaps]
    cases h : dupes.get? j <;> simp [h, Function.comp]

/-- C1 counterexample: a two-candidate group in which every score is
negative.  The first candidate scores −5, the second −2, yet the first is
kept (`r = false`) and the higher-scoring second is removed — the claim that
the kept candidate always has the strictly highest score (ties aside) is
false. -/
theorem C1_counterexample :
    analyzeGroup [] [⟨"/a/a/a/a/a/a/a/a/a/a/a/a/a/a/a/a/a/a/a/%", false⟩,
        ⟨"/a/a/a/a/a/a/a/a/a/a/a/a/a/a/a/a/%", false⟩] =
      [⟨"/a/a/a/a/a/a/a/a/a/a/a/a/a/a/a/a/a/a/a/%", false, -5, false⟩,
        ⟨"/a/a/a/a/a/a/a/a/a/a/a/a/a/a/a/a/%", false, -2, true⟩] ∧
    (-5 : ℤ) < -2 := by
  constructor
  · decide
  · decide

/-- Witness for C1 at a concrete two-candidate group. -/
theorem C1_keeper_selection_witness :
    ([(⟨"/a/x.txt", false⟩ : DupeItem), ⟨"/b/y.txt", false⟩] ≠ []) ∧
    (pickHighest ([(⟨"/a/x.txt", false⟩ : DupeItem), ⟨"/b/y.txt", false⟩].map
        (scoreItem [])) <
      [(⟨"/a/x.txt", false⟩ : DupeItem), ⟨"/b/y.txt", false⟩].length) :=
  ⟨by decide,
    (C1_keeper_selection [] [⟨"/a/x.txt", false⟩, ⟨"/b/y.txt", false⟩] (by decide)).1⟩

/-!
## Claim C2
-/

lemma scoreItem_eq_amendedScore (favored : List String) (d : DupeItem) :
    scoreItem favored d = amendedScore favored d := by
  simp only [scoreItem, amendedScore, amendedFavoredBonus]
  by_cases hfav : favored.contains d.fp
  · simp only [hfav, if_true]
    split_ifs <;> ring
  · simp only [Bool.not_eq_true] at hfav
    simp only [hfav, Bool.false_eq_true, if_false]
    rw [foldl_if_add]
    split_ifs <;> ring

/-- C2 counterexample: for the candidate `/a/b/x%.txt` with favored paths
`["/a", "/a/b"]`, the code scores 173 but the claim's formula gives 69.  Two
discrepancies are visible at this input: the code's portable-name test only
checks the FIRST character (`re.match` anchors), so `x%.txt` still gets +4,
and the code adds a favored-prefix bonus for EVERY matching prefix
(50 for `/a` plus 100 for `/a/b`), not just the single expected one. -/
theorem C2_counterexample :
    scoreItem ["/a", "/a/b"] ⟨"/a/b/x%.txt", false⟩ = 173 ∧
    claimScore ["/a", "/a/b"] ⟨"/a/b/x%.txt", false⟩ = 69 := by
  constructor
  · decide
  · decide

/-- C2 (corrected): for every candidate with a non-empty filename and every
favored-path set, the computed score equals (15 − number of `/` separators)
+ (5 if catalog-origin) + round(10·letters/length) + (4 if the filename is
empty or its FIRST character is in `[A-Za-z0-9._-]`) + favoredBonus, where
favoredBonus is 1000 on an exact match and otherwise the SUM of
round(100·(c+1)/n) over every favored directory prefix at depth `c`. -/
theorem C2_score_formula (favored : List String) (d : DupeItem)
    (_hf : (osPathSplit d.fp).2 ≠ "") :
    scoreItem favored d = amendedScore favored d :=
  scoreItem_eq_amendedScore favored d

/-- Witness for C2 at a concrete candidate. -/
theorem C2_score_formula_witness :
    ((osPathSplit "/a/foo.txt").2 ≠ "") ∧
    scoreItem ["/a"] ⟨"/a/foo.txt", false⟩ = amendedScore ["/a"] ⟨"/a/foo.txt", false⟩ :=
  ⟨by decide, C2_score_formula ["/a"] ⟨"/a/foo.txt", false⟩ (by decide)⟩

/-!
## Claim C4
-/

lemma scoreItem_ge_of_exact (F : List String) (X : DupeItem)
    (hX : F.contains X.fp = true) (hsep : countChar X.fp '/' ≤ 15) :
    1000 ≤ scoreItem F X := by
  simp only [scoreItem, hX, if_true]
  have h0 : (0 : ℤ) ≤ 15 - (countChar X.fp '/' : ℤ) := by
    have : (countChar X.fp '/' : ℤ) ≤ 15 := by exact_mod_cast hsep
    linarith
  have ha := alphaTerm_nonneg (osPathSplit X.fp).2
  split_ifs <;> linarith

lemma scoreItem_le_of_not_exact (F : List String) (Y : DupeItem)
    (hY : F.contains Y.fp = false)
    (hpref : ((List.range (dirChunks (osPathSplit Y.fp).1).length).filter
        (fun c => F.contains (prefixPath (dirChunks (osPathSplit Y.fp).1) c))).length ≤ 1) :
    scoreItem F Y ≤ 134 := by
  simp only [scoreItem, hY, Bool.false_eq_true, if_false]
  rw [foldl_if_add]
  have hsep : (0 : ℤ) ≤ (countChar Y.fp '/' : ℤ) := by positivity
  have ha := alphaTerm_le_ten (osPathSplit Y.fp).2
  have hsum : ((((List.range (dirChunks (osPathSplit Y.fp).1).length).filter
      (fun c => F.contains (prefixPath (dirChunks (osPathSplit Y.fp).1) c))).map
        (fun (c : ℕ) => pythonRound (((c : ℤ) + 1) * 100)
          ((dirChunks (osPathSplit Y.fp).1).length : ℤ))).sum) ≤ 100 := by
    rcases hl : (List.range (dirChunks (osPathSplit Y.fp).1).length).filter
        (fun c => F.contains (prefixPath (dirChunks (osPathSplit Y.fp).1) c)) with _ | ⟨c, t⟩
    · simp
    · have hlen := hpref
      rw [hl] at hlen
      have ht : t = [] := by
        simp only [List.length_cons] at hlen
        exact List.length_eq_zero.mp (by omega)
      subst ht
      have hcmem : c ∈ (List.range (dirChunks (osPathSplit Y.fp).1).length) := by
        have : c ∈ (List.range (dirChunks (osPathSplit Y.fp).1).length).filter
            (fun c => F.contains (prefixPath (dirChunks (osPathSplit Y.fp).1) c)) := by
          rw [hl]; exact List.mem_cons_self c []
        exact (List.mem_filter.mp this).1
      have hcn : c < (dirChunks (osPathSplit Y.fp).1).length := List.mem_range.mp hcmem
      simp only [List.map_cons, List.map_nil, List.sum_cons, List.sum_nil, add_zero]
      apply pythonRound_le
      · exact_mod_cast Nat.pos_of_ne_zero (by omega)
      · have hcast : ((c : ℤ) + 1) ≤ ((dirChunks (osPathSplit Y.fp).1).length : ℤ) := by
          exact_mod_cast hcn
        linarith
  split_ifs <;> linarith

/-- C4 (corrected): favored-path dominance holds under the two boundary
conditions the original claim silently assumed — the exactly-favored
candidate's path has at most 15 separators (the depth term is unbounded
below, so an extremely deep favored path can still lose), and the favored
set contains at most one directory prefix of the sibling (the code adds one
bonus per matching prefix, so many favored prefixes can push a sibling past
1000). -/
theorem C4_favored_dominance (X Y : DupeItem) (F : List String)
    (hX : F.contains X.fp = true) (hY : F.contains Y.fp = false)
    (hsep : countChar X.fp '/' ≤ 15)
    (hpref : ((List.range (dirChunks (osPathSplit Y.fp).1).length).filter
        (fun c => F.contains (prefixPath (dirChunks (osPathSplit Y.fp).1) c))).length ≤ 1) :
    scoreItem F Y < scoreItem F X := by
  have h1 := scoreItem_ge_of_exact F X hX hsep
  have h2 := scoreItem_le_of_not_exact F Y hY hpref
  linarith

/-- Witness for C4 at a concrete pair of candidates. -/
theorem C4_favored_dominance_witness :
    (["/x/foo.txt"].contains "/x/foo.txt" = true) ∧
    (["/x/foo.txt"].contains "/b/bar.txt" = false) ∧
    scoreItem ["/x/foo.txt"] ⟨"/b/bar.txt", false⟩ <
      scoreItem ["/x/foo.txt"] ⟨"/x/foo.txt", false⟩ :=
  ⟨by decide, by decide,
    C4_favored_dominance ⟨"/x/foo.txt", false⟩ ⟨"/b/bar.txt", false⟩ ["/x/foo.txt"]
      (by decide) (by decide) (by decide) (by decide)⟩

lemma countChar_mkDeep (n : ℕ) : countChar (mkDeep n) '/' = n + 1 := by
  induction n with
  | zero => decide
  | succ k ih =>
      simp only [countChar, mkDeep, mkDeepChars, List.count_cons] at ih ⊢
      simp at ih ⊢
      omega

lemma mkDeepChars_reverse (n : ℕ) : ∃ t, (mkDeepChars n).reverse = '%' :: '/' :: t := by
  induction n with
  | zero => exact ⟨[], by decide⟩
  | succ k ih =>
      obtain ⟨t, ht⟩ := ih
      refine ⟨t ++ ['a', '/'], ?_⟩
      simp [mkDeepChars, ht]

lemma mkDeepChars_length (n : ℕ) : (mkDeepChars n).length = 2 * n + 2 := by
  induction n with
  | zero => decide
  | succ k ih => simp [mkDeepChars, ih]; omega

lemma osPathSplit_mkDeep_snd (n : ℕ) : (osPathSplit (mkDeep n)).2 = "%" := by
  obtain ⟨t, ht⟩ := mkDeepChars_reverse n
  show String.mk (((mkDeep n).data.reverse.takeWhile (fun c => c ≠ '/')).reverse) = "%"
  have hdata : (mkDeep n).data = mkDeepChars n := rfl
  rw [hdata, ht]
  simp [List.takeWhile_cons]

lemma mkDeep_ne (n : ℕ) (s : String) (hlen : s.data.length ≠ 2 * n + 2) :
    mkDeep n ≠ s := by
  intro h
  apply hlen
  rw [← h]
  exact mkDeepChars_length n

lemma scoreItem_mkDeep_self (n : ℕ) :
    scoreItem [mkDeep n] ⟨mkDeep n, false⟩ = 1014 - n := by
  have hcontains : [mkDeep n].contains (mkDeep n) = true := by
    simp [List.contains_cons]
  have hport : IsPortableFilename (mkDeep n) = false := by
    simp only [IsPortableFilename]
    rw [osPathSplit_mkDeep_snd n]
    decide
  have halpha : (osPathSplit (mkDeep n)).2 = "%" := osPathSplit_mkDeep_snd n
  simp only [scoreItem, hcontains, if_true, hport, Bool.false_eq_true, if_false,
    countChar_mkDeep n, halpha]
  have hz : pythonRound ((alphaCount "%" : ℤ) * 10) ("%".length : ℤ) = 0 := by decide
  rw [hz]
  push_cast
  ring

lemma scoreItem_singleton_far (x : String) (d : DupeItem) (h1 : x ≠ d.fp)
    (h2 : ∀ c, x ≠ prefixPath (dirChunks (osPathSplit d.fp).1) c) :
    scoreItem [x] d = scoreItem [] d := by
  have hc : [x].contains d.fp = false := by
    simp only [List.contains_cons, List.contains_nil, Bool.or_false, beq_eq_false_iff_ne]
    exact fun h => h1 h.symm
  have hcp : ∀ c, [x].contains (prefixPath (dirChunks (osPathSplit d.fp).1) c) = false := by
    intro c
    simp only [List.contains_cons, List.contains_nil, Bool.or_false, beq_eq_false_iff_ne]
    exact fun h => h2 c h.symm
  simp only [scoreItem, hc, Bool.false_eq_true, if_false, List.contains_nil]
  have hfun : (fun (s : ℤ) (c : ℕ) =>
      if [x].contains (prefixPath (dirChunks (osPathSplit d.fp).1) c) then
        s + pythonRound (((c : ℤ) + 1) * 100)
          ((dirChunks (osPathSplit d.fp).1).length : ℤ)
      else s) = fun s _ => s := by
    funext s c
    rw [hcp c]
    simp
  rw [hfun]

/-- C4 counterexample, two instances refuting unconditional dominance.
First: candidate X `/x/foo.txt` has an exact favored rule (score 1026), but
sibling Y sits under twenty favored directory prefixes whose bonuses SUM to
1050, so Y scores 1057 and wins despite X's +1000.  Second: X is an
exactly-favored path of depth 990 (`mkDeep 989`), whose depth term
15 − 990 drags it to 25, losing to a plain `/b/foo.txt` scoring 26. -/
theorem C4_counterexample :
    (favC4.contains "/x/foo.txt" = true ∧ favC4.contains yPathC4 = false ∧
      scoreItem favC4 ⟨"/x/foo.txt", false⟩ = 1026 ∧
      scoreItem favC4 ⟨yPathC4, false⟩ = 1057) ∧
    ([mkDeep 989].contains (mkDeep 989) = true ∧
      [mkDeep 989].contains "/b/foo.txt" = false ∧
      scoreItem [mkDeep 989] ⟨mkDeep 989, false⟩ = 25 ∧
      scoreItem [mkDeep 989] ⟨"/b/foo.txt", false⟩ = 26) := by
  refine ⟨⟨by decide, by decide, by decide, by decide⟩, ?_, ?_, ?_, ?_⟩
  · simp [List.contains_cons]
  · have h1 : mkDeep 989 ≠ "/b/foo.txt" := mkDeep_ne 989 _ (by decide)
    simp only [List.contains_cons, List.contains_nil, Bool.or_false, beq_eq_false_iff_ne]
    exact fun h => h1 h.symm
  · rw [scoreItem_mkDeep_self 989]
    norm_num
  · rw [scoreItem_singleton_far (mkDeep 989) ⟨"/b/foo.txt", false⟩
      (mkDeep_ne 989 _ (by decide)) ?_]
    · decide
    · intro c
      have hpp : prefixPath (dirChunks (osPathSplit "/b/foo.txt").1) c = "/b" := by
        have hch : dirChunks (osPathSplit "/b/foo.txt").1 = ["b"] := by decide
        rw [hch]
        simp only [prefixPath, List.take_succ_cons, List.take_nil]
        decide
      rw [hpp]
      exact mkDeep_ne 989 _ (by decide)

/-!
## Claim C3
-/

lemma matchingOf_length_pos (nd : List Rec) (dupesAcc : List String) (f : Rec)
    (hf : f ∈ nd) (hc : dupesAcc.contains (fullp f) = false) :
    0 < (matchingOf nd dupesAcc f.h).length := by
  unfold matchingOf
  rw [List.length_map]
  apply List.length_pos_of_mem (a := f)
  refine List.mem_filter.mpr ⟨hf, ?_⟩
  rw [hc]
  simp

lemma matchingOf_countP_cat (nd : List Rec) (dupesAcc : List String) (h : String) :
    (matchingOf nd dupesAcc h).countP (fun d => d.cat) = 0 := by
  unfold matchingOf
  rw [List.countP_map]
  simp [Function.comp, List.countP_eq_zero]

lemma matchingOf_countP_scan (nd : List Rec) (dupesAcc : List String) (h : String) :
    (matchingOf nd dupesAcc h).countP (fun d => !d.cat) =
      (matchingOf nd dupesAcc h).length := by
  unfold matchingOf
  rw [List.countP_map, List.length_map]
  simp [Function.comp, List.countP_true]

lemma identify_invariant (includeCat : Bool) (catalog : List (String × CatEntry))
    (ex : String → Bool) (nd : List Rec) :
    ∀ (l : List Rec) (st : IdState),
      (∀ f ∈ l, f ∈ nd) →
      (∀ g ∈ st.duplicates,
        (g.countP (fun d => d.cat) ≤ 1 ∧ 1 ≤ g.countP (fun d => !d.cat)) ∧
        (includeCat = true → 2 ≤ g.length)) →
      ∀ g ∈ (l.foldl (identifyStep includeCat catalog ex nd) st).duplicates,
        (g.countP (fun d => d.cat) ≤ 1 ∧ 1 ≤ g.countP (fun d => !d.cat)) ∧
        (includeCat = true → 2 ≤ g.length) := by
  intro l
  induction l with
  | nil => intro st _ hst; exact hst
  | cons f t ih =>
      intro st hl hst
      simp only [List.foldl_cons]
      apply ih _ (fun x hx => hl x (List.mem_cons_of_mem f hx))
      have hf : f ∈ nd := hl f (List.mem_cons_self f t)
      intro g hg
      simp only [identifyStep] at hg
      split at hg
      · exact hst g hg
      · rename_i h1
        rw [Bool.not_eq_true] at h1
        split at hg
        · rename_i o hcat
          split at hg
          · exact hst g hg
          · simp only [List.mem_append, List.mem_singleton] at hg
            rcases hg with hg | hg
            · exact hst g hg
            · subst hg
              have hm := matchingOf_length_pos nd st.dupes f hf h1
              refine ⟨⟨?_, ?_⟩, fun hic => ?_⟩
              · rw [List.countP_append, matchingOf_countP_cat]
                rcases includeCat <;> simp [List.countP_cons]
              · rw [List.countP_append, matchingOf_countP_scan]
                omega
              · subst hic
                simp only [if_true, List.length_append, List.length_cons,
                  List.length_nil]
                omega
        · rename_i hcat
          split at hg
          · exact hst g hg
          · rename_i hlen
            simp only [List.mem_append, List.mem_singleton] at hg
            rcases hg with hg | hg
            · exact hst g hg
            · subst hg
              refine ⟨⟨?_, ?_⟩, fun _ => ?_⟩
              · rw [matchingOf_countP_cat]; omega
              · rw [matchingOf_countP_scan]; omega
              · omega

/-- C3 (corrected): groups always contain at most one catalog-origin
candidate and at least one scan-origin candidate, and when
`remove_catalog_dupes` is on (the default) every group has at least two
candidates.  With `ignore-catalog-dupes` however, a group consisting of a
SINGLE scan candidate forms whenever its hash matches a live catalog entry:
the guard `len(matching) < 2 and not catalog_item` does not discard it
because `catalog_item` is non-empty even though it was not added to the
group. -/
theorem C3_group_size (includeCat : Bool) (catalog : List (String × CatEntry))
    (ex : String → Bool) (nd : List Rec) (g : List DupeItem)
    (hg : g ∈ (identifyDuplicates includeCat catalog ex nd).duplicates) :
    (g.countP (fun d => d.cat) ≤ 1 ∧ 1 ≤ g.countP (fun d => !d.cat)) ∧
    (includeCat = true → 2 ≤ g.length) :=
  identify_invariant includeCat catalog ex nd nd ⟨[], [], []⟩
    (fun _ hf => hf) (fun _ hgg => absurd hgg (List.not_mem_nil _)) g hg

/-- C3 counterexample: with `ignore-catalog-dupes` set
(`includeCatalogDuplicates = false`), one scan record whose hash matches a
live catalog entry forms a group with exactly ONE candidate — the claimed
`≥ 2` invariant fails for that flag setting. -/
theorem C3_counterexample :
    ((identifyDuplicates false [("h", ⟨"g.txt", "/c", 5⟩)] (fun _ => true)
        [⟨"h", "f.txt", "/x", 5⟩]).duplicates.map List.length) = [1] := by
  decide

/-- Witness for C3 at a concrete two-record group. -/
theorem C3_group_size_witness :
    ([(⟨"/a/a.txt", false⟩ : DupeItem), ⟨"/b/b.txt", false⟩] ∈
      (identifyDuplicates true [] (fun _ => true)
        [⟨"h", "a.txt", "/a", 5⟩, ⟨"h", "b.txt", "/b", 5⟩]).duplicates) ∧
    2 ≤ ([(⟨"/a/a.txt", false⟩ : DupeItem), ⟨"/b/b.txt", false⟩] : List DupeItem).length :=
  ⟨by decide,
    (C3_group_size true [] (fun _ => true)
      [⟨"h", "a.txt", "/a", 5⟩, ⟨"h", "b.txt", "/b", 5⟩]
      [⟨"/a/a.txt", false⟩, ⟨"/b/b.txt", false⟩] (by decide)).2 rfl⟩

/-!
## Claim C5
-/

/-- C5 (corrected): the example scenario runs as the spec describes — two
scan records sharing one hash, one group of two candidates, a tie resolved
to the first-encountered candidate, the other queued for removal — except
that each candidate scores 26, not 28: `/a/foo.txt` has TWO `/` separators
(15−2=13, not 15−1=14) and `round(10·6/7) = 9`, not 10, so the score is
13+0+9+4+0 = 26.  Stated for every content-hash function `H` and every disk
state `ex`. -/
theorem C5_example_scenario (H : List ℕ → String) (ex : String → Bool) :
    cfScan H [] [] c5files =
      [⟨H helloBytes, "foo.txt", "/a", 5⟩, ⟨H helloBytes, "foo.txt", "/b", 5⟩] ∧
    (identifyDuplicates true [] ex (cfScan H [] [] c5files)).duplicates =
      [[⟨"/a/foo.txt", false⟩, ⟨"/b/foo.txt", false⟩]] ∧
    (identifyDuplicates true [] ex (cfScan H [] [] c5files)).to_be_removed = [] ∧
    AnalyzeDupes [] [[⟨"/a/foo.txt", false⟩, ⟨"/b/foo.txt", false⟩]] =
      [[⟨"/a/foo.txt", false, 26, false⟩, ⟨"/b/foo.txt", false, 26, true⟩]] ∧
    reviewToBeRemoved true [] ex (cfScan H [] [] c5files) [] = ["/b/foo.txt"] := by
  have h1 : cfScan H [] [] c5files =
      [⟨H helloBytes, "foo.txt", "/a", 5⟩, ⟨H helloBytes, "foo.txt", "/b", 5⟩] := rfl
  have h2 : identifyDuplicates true [] ex (cfScan H [] [] c5files) =
      ⟨["/a/foo.txt", "/b/foo.txt"],
       [[⟨"/a/foo.txt", false⟩, ⟨"/b/foo.txt", false⟩]], []⟩ := by
    rw [h1]
    simp only [identifyDuplicates, List.foldl_cons, List.foldl_nil, identifyStep,
      matchingOf, catLookup, fullp]
    simp +decide [beq_self_eq_true]
  have h4 : AnalyzeDupes [] [[⟨"/a/foo.txt", false⟩, ⟨"/b/foo.txt", false⟩]] =
      [[⟨"/a/foo.txt", false, 26, false⟩, ⟨"/b/foo.txt", false, 26, true⟩]] := by
    decide
  have h5 : reviewToBeRemoved true [] ex (cfScan H [] [] c5files) [] =
      ["/b/foo.txt"] := by
    unfold reviewToBeRemoved
    rw [h2]
    decide
  exact ⟨h1, by rw [h2], by rw [h2], h4, h5⟩

/-- C5 counterexample: the candidate `/a/foo.txt` scores 26, not the 28 the
claim asserts — the full path holds two separators and the letters ratio
rounds to 9. -/
theorem C5_counterexample :
    scoreItem [] ⟨"/a/foo.txt", false⟩ = 26 ∧ (26 : ℤ) ≠ 28 := by
  constructor
  · decide
  · decide

/-!
## Claim C6
-/

lemma removeDupes_group (g : List ScoredItem) :
    ∀ a, g.foldl (fun a2 d => if d.r then a2 ++ [d.fp] else a2) a =
      a ++ (g.filter (fun d => d.r)).map (fun d => d.fp) := by
  induction g with
  | nil => intro a; simp
  | cons d t ih =>
      intro a
      by_cases hd : d.r <;> simp [List.foldl_cons, hd, ih]

lemma RemoveDupes_eq (analyzed : List (List ScoredItem)) :
    ∀ acc, RemoveDupes analyzed acc =
      acc ++ ((analyzed.join).filter (fun d => d.r)).map (fun d => d.fp) := by
  induction analyzed with
  | nil => intro acc; simp [RemoveDupes]
  | cons g t ih =>
      intro acc
      simp only [RemoveDupes, List.foldl_cons] at ih ⊢
      rw [removeDupes_group g acc, ih]
      simp [List.join]

/-- C6 (corrected): `to_be_removed` is NOT populated only at the end of the
review — the grouping step already appends, before any review, the path of
every scan record whose hash matches a catalog entry that is gone from disk
(the orphaned-duplicate branch).  At the end of the review `RemoveDupes`
then appends, exactly once, the paths of all candidates whose keep flag is
false, so the final list is the orphan paths followed by the keep=false
paths; the deletion step consumes the list exactly once, deleting each
still-existing listed path in order. -/
theorem C6_removal_population :
    (∀ (includeCat : Bool) (catalog : List (String × CatEntry)) (ex : String → Bool)
        (nd : List Rec) (favored : List String),
      reviewToBeRemoved includeCat catalog ex nd favored =
        (identifyDuplicates includeCat catalog ex nd).to_be_removed ++
        (((AnalyzeDupes favored
            (identifyDuplicates includeCat catalog ex nd).duplicates).join).filter
          (fun d => d.r)).map (fun d => d.fp)) ∧
    (∀ (ex : String → Bool) (tbr : List String) (nd : List Rec) (ansCommit : Bool),
      tbr ≠ [] →
      (finalPhase ex tbr nd true ansCommit).filterMap effDeletedPath =
        tbr.filter ex) := by
  constructor
  · intro includeCat catalog ex nd favored
    unfold reviewToBeRemoved
    by_cases hlen : 0 < (identifyDuplicates includeCat catalog ex nd).duplicates.length
    · rw [if_pos hlen, RemoveDupes_eq]
    · rw [if_neg hlen]
      have hnil : (identifyDuplicates includeCat catalog ex nd).duplicates = [] := by
        rcases h : (identifyDuplicates includeCat catalog ex nd).duplicates with _ | _
        · rfl
        · rw [h] at hlen; simp at hlen
      rw [hnil]
      simp [AnalyzeDupes]
  · intro ex tbr nd ansCommit htbr
    unfold finalPhase
    have hlen : 0 < tbr.length := List.length_pos.mpr htbr
    rw [if_pos hlen, if_pos rfl]
    rw [List.filterMap_append]
    have hdel : ∀ l : List String,
        (l.map Eff.fileDelete).filterMap effDeletedPath = l := by
      intro l
      induction l with
      | nil => rfl
      | cons x t ih => simp [List.filterMap_cons, effDeletedPath, ih]
    have hcommit : ∀ (nce : List Rec) (aC : Bool),
        ((if 0 < (nd.filter (fun i => !tbr.contains (fullp i))).length then
          [Eff.promptCommit] ++
            (if aC then [Eff.catalogWrite, Eff.wipDelete] else [])
        else [Eff.wipDelete]).filterMap effDeletedPath) = [] := by
      intro nce aC
      split_ifs <;> simp [List.filterMap_cons, effDeletedPath]
    simp [List.filterMap_cons, effDeletedPath, hdel]
    intro a ha
    split_ifs at ha <;> fin_cases ha <;> rfl

/-- C6 counterexample: a single scan record `/x/f.txt` whose hash matches a
catalog entry whose own file `/gone/g.txt` no longer exists.  The grouping
step itself queues `/x/f.txt` for removal and forms no group at all, so the
final removal list is non-empty while the set of keep=false candidates is
empty — the list's contents are not (only) the keep=false candidates, and it
is populated before the review session ends. -/
theorem C6_counterexample :
    reviewToBeRemoved true [("h", ⟨"g.txt", "/gone", 5⟩)] (fun _ => false)
        [⟨"h", "f.txt", "/x", 5⟩] [] = ["/x/f.txt"] ∧
    (identifyDuplicates true [("h", ⟨"g.txt", "/gone", 5⟩)] (fun _ => false)
        [⟨"h", "f.txt", "/x", 5⟩]).duplicates = [] := by
  constructor
  · decide
  · decide

/-- Witness for C6's deletion-trace conjunct at a concrete list. -/
theorem C6_removal_population_witness :
    ((["/x"] : List String) ≠ []) ∧
    (finalPhase (fun _ => true) ["/x"] [] true true).filterMap effDeletedPath =
      ["/x"].filter (fun _ => true) :=
  ⟨by decide, C6_removal_population.2 (fun _ => true) ["/x"] [] true (by decide)⟩

/-!
## Claim C7
-/

/-- C7 (confirmed): in all three scan loops — `catalog_files.py`,
`update_catalog_locations.py`, `find_noncatalog_files.py` — a discovered
file whose full path is in the catalog's path index with a recorded size
equal to the live size is skipped before hashing: the hash function is not
invoked (flag `false`) and no record is emitted (state unchanged). -/
theorem C7_skip_invariant (H : List ℕ → String) (ex : String → Bool)
    (catalog : List (String × CatEntry)) (file : FSFile)
    (st1 st3 : List Rec) (st2 : List Rec × List Rec)
    (q : String × CatEntry)
    (hidx : indexFindEntry catalog (pathJoin file.p file.f) = some q)
    (hsize : file.s = q.2.s) :
    cfScanStep H catalog st1 file = (st1, false) ∧
    uclStep H ex catalog st3 file = (st3, false) ∧
    fncStep H catalog st2 file = (st2, false) := by
  have hb : (file.s == q.2.s) = true := beq_iff_eq.mpr hsize
  refine ⟨?_, ?_, ?_⟩
  · simp only [cfScanStep]
    by_cases hext : ignoredExt file.f
    · rw [if_pos hext]
    · rw [if_neg hext, hidx]
      simp [hb]
  · simp only [uclStep]
    by_cases hext : ignoredExt file.f
    · rw [if_pos hext]
    · rw [if_neg hext, hidx]
      simp [hb]
  · simp only [fncStep]
    by_cases hext : ignoredExt file.f
    · rw [if_pos hext]
    · rw [if_neg hext, hidx]
      simp [hb]

/-- Witness for C7 at a concrete catalog and file. -/
theorem C7_skip_invariant_witness :
    (indexFindEntry [("h", ⟨"a.txt", "/a", 5⟩)] (pathJoin "/a" "a.txt") =
      some ("h", ⟨"a.txt", "/a", 5⟩)) ∧
    cfScanStep (fun _ => "x") [("h", ⟨"a.txt", "/a", 5⟩)] []
      ⟨"/a", "a.txt", 5, []⟩ = ([], false) :=
  ⟨by decide,
    (C7_skip_invariant (fun _ => "x") (fun _ => true) [("h", ⟨"a.txt", "/a", 5⟩)]
      ⟨"/a", "a.txt", 5, []⟩ [] [] ([], []) ("h", ⟨"a.txt", "/a", 5⟩)
      (by decide) (by decide)).1⟩

/-!
## Claim C8
-/

lemma catLookup_append_none (a b : List (String × CatEntry)) (k : String)
    (h : catLookup (a ++ b) k = none) : catLookup a k = none := by
  induction a with
  | nil => rfl
  | cons p t ih =>
      obtain ⟨k0, v⟩ := p
      rw [List.cons_append] at h
      simp only [catLookup] at h ⊢
      by_cases hk : k0 = k
      · rw [if_pos hk] at h ⊢
        exact h
      · rw [if_neg hk] at h ⊢
        exact ih h

lemma commit_fold (l : List Rec) :
    ∀ (cat0 : List (String × CatEntry)) (sk0 : List String),
      ∃ ins sk, l.foldl commitStep (cat0, sk0) = (cat0 ++ ins, sk0 ++ sk) ∧
        ins.length + sk.length = l.length ∧
        ∀ q ∈ ins, catLookup cat0 q.1 = none := by
  induction l with
  | nil =>
      intro cat0 sk0
      exact ⟨[], [], by simp, by simp, by simp⟩
  | cons i t ih =>
      intro cat0 sk0
      simp only [List.foldl_cons, commitStep]
      by_cases hl : (catLookup cat0 i.h).isSome = true
      · rw [if_pos hl]
        obtain ⟨ins, sk, heq, hlen, hprop⟩ := ih cat0 (sk0 ++ [i.h])
        refine ⟨ins, [i.h] ++ sk, ?_, ?_, hprop⟩
        · rw [heq]; simp
        · simp only [List.length_append, List.length_cons, List.length_nil] at hlen ⊢
          omega
      · rw [if_neg hl]
        obtain ⟨ins, sk, heq, hlen, hprop⟩ := ih (cat0 ++ [(i.h, ⟨i.f, i.p, i.s⟩)]) sk0
        refine ⟨[(i.h, ⟨i.f, i.p, i.s⟩)] ++ ins, sk, ?_, ?_, ?_⟩
        · rw [heq]; simp
        · simp only [List.length_append, List.length_cons, List.length_nil] at hlen ⊢
          omega
        · intro w hw
          rcases List.mem_cons.mp hw with rfl | hw2
          · exact Option.not_isSome_iff_eq_none.mp hl
          · exact catLookup_append_none cat0 _ w.1 (hprop w hw2)

/-- C8 (corrected): the commit step inserts, in order, exactly the
non-excluded records whose hash is not yet a catalog key at the moment they
are processed; existing entries are never overwritten (the new catalog is
the old one with the insertions appended, and every inserted hash was absent
from the old catalog); each non-excluded record is either inserted or its
hash reported as skipped.  However, the REPORTED added count is
`len(new_cat_entries)` — the number of non-excluded records — which exceeds
the number actually inserted whenever any hash was already present. -/
theorem C8_commit_insertions (catalog : List (String × CatEntry)) (nd : List Rec)
    (tbr : List String) :
    (commitNew catalog nd tbr).2.2 =
      (nd.filter (fun i => !tbr.contains (fullp i))).length ∧
    ∃ ins, (commitNew catalog nd tbr).1 = catalog ++ ins ∧
      ins.length + (commitNew catalog nd tbr).2.1.length =
        (nd.filter (fun i => !tbr.contains (fullp i))).length ∧
      ∀ q ∈ ins, catLookup catalog q.1 = none := by
  obtain ⟨ins, sk, heq, hlen, hprop⟩ :=
    commit_fold (nd.filter (fun i => !tbr.contains (fullp i))) catalog []
  have h1 : (commitNew catalog nd tbr).1 =
      ((nd.filter (fun i => !tbr.contains (fullp i))).foldl commitStep
        (catalog, ([] : List String))).1 := rfl
  have h2 : (commitNew catalog nd tbr).2.1 =
      ((nd.filter (fun i => !tbr.contains (fullp i))).foldl commitStep
        (catalog, ([] : List String))).2 := rfl
  rw [heq] at h1 h2
  simp only [List.nil_append] at h1 h2
  refine ⟨rfl, ins, h1, ?_, hprop⟩
  rw [h2]
  exact hlen

/-- C8 counterexample: one record whose hash `h` is already a catalog key.
Nothing is inserted (the catalog is returned unchanged and `h` is reported
as skipped), yet the reported added count is 1 — the claim that the reported
count equals the number of records actually inserted is false. -/
theorem C8_counterexample :
    commitNew [("h", ⟨"a.txt", "/a", 5⟩)] [⟨"h", "b.txt", "/b", 5⟩] [] =
      ([("h", ⟨"a.txt", "/a", 5⟩)], ["h"], 1) := by
  decide

/-!
## Claim C9
-/

lemma findHash_two_entries (ex : String → Bool) (cl : List Rec) (sz : ℕ)
    (a b : Rec) (hfilter : cl.filter (fun i => i.s = sz) = [a, b])
    (hab : ex (pathJoin a.p a.f) ≠ ex (pathJoin b.p b.f)) :
    FindHashByFileAndSize ex cl sz =
      (if ex (pathJoin a.p a.f) then b.h else a.h) := by
  simp only [FindHashByFileAndSize, hfilter]
  cases hea : ex (pathJoin a.p a.f)
  · have heb : ex (pathJoin b.p b.f) = true := by
      cases hb : ex (pathJoin b.p b.f)
      · rw [hea, hb] at hab; exact absurd rfl hab
      · rfl
    simp [List.filter_cons, List.filter_nil, hea, heb]
  · have heb : ex (pathJoin b.p b.f) = false := by
      cases hb : ex (pathJoin b.p b.f)
      · rfl
      · rw [hea, hb] at hab; exact absurd rfl hab
    simp [List.filter_cons, List.filter_nil, hea, heb]

lemma findHash_empty (ex : String → Bool) (cl : List Rec) (sz : ℕ)
    (hne : ∀ i ∈ cl, i.h ≠ "")
    (h : FindHashByFileAndSize ex cl sz = "") :
    (cl.filter (fun i => i.s = sz)).length ≠ 1 ∧
    ((cl.filter (fun i => i.s = sz)).filter
      (fun i => !ex (pathJoin i.p i.f))).length ≠ 1 := by
  have hsubne : ∀ i ∈ cl.filter (fun i => i.s = sz), i.h ≠ "" :=
    fun i hi => hne i (List.mem_filter.mp hi).1
  simp only [FindHashByFileAndSize] at h
  rcases hsub : cl.filter (fun i => i.s = sz) with _ | ⟨x, xs⟩
  · rw [hsub] at h
    simp [hsub]
  · rcases xs with _ | ⟨y, ys⟩
    · rw [hsub] at h
      exact absurd h (hsubne x (by rw [hsub]; exact List.mem_cons_self x []))
    · rw [hsub] at h
      have hss2ne : ∀ i ∈ (x :: y :: ys).filter (fun i => !ex (pathJoin i.p i.f)),
          i.h ≠ "" := by
        intro i hi
        apply hsubne
        rw [hsub]
        exact (List.mem_filter.mp hi).1
      constructor
      · rw [hsub]; simp
      · rw [hsub]
        rcases hss : (x :: y :: ys).filter (fun i => !ex (pathJoin i.p i.f)) with
          _ | ⟨z, zs⟩
        · rw [hss]; simp
        · rcases zs with _ | ⟨w, ws⟩
          · rw [hss] at h
            exact absurd h (hss2ne z (by rw [hss]; exact List.mem_cons_self z []))
          · rw [hss]; simp

/-- C9 (confirmed, under the well-formedness assumption that catalog hashes
are non-empty strings, which holds for every hash the scripts ever store):
(1) with exactly two same-size entries of which exactly one's recorded file
is missing, `FindHashByFileAndSize` returns the missing entry's hash;
(2) in that situation the reconciliation loop never invokes the content
hasher for a file of that size; (3) in general the hasher is invoked only
when neither the size-uniqueness step nor the missing-on-disk narrowing
leaves exactly one candidate. -/
theorem C9_reconciliation (H : List ℕ → String) (ex : String → Bool)
    (catalog : List (String × CatEntry))
    (hwf : ∀ q ∈ catalog, q.1 ≠ "") :
    (∀ (sz : ℕ) (a b : Rec),
      (catalogList catalog).filter (fun i => i.s = sz) = [a, b] →
      ex (pathJoin a.p a.f) ≠ ex (pathJoin b.p b.f) →
      FindHashByFileAndSize ex (catalogList catalog) sz =
        (if ex (pathJoin a.p a.f) then b.h else a.h)) ∧
    (∀ (file : FSFile) (st : List Rec) (a b : Rec),
      (catalogList catalog).filter (fun i => i.s = file.s) = [a, b] →
      ex (pathJoin a.p a.f) ≠ ex (pathJoin b.p b.f) →
      (uclStep H ex catalog st file).2 = false) ∧
    (∀ (file : FSFile) (st : List Rec),
      (uclStep H ex catalog st file).2 = true →
      ((catalogList catalog).filter (fun i => i.s = file.s)).length ≠ 1 ∧
      (((catalogList catalog).filter (fun i => i.s = file.s)).filter
        (fun i => !ex (pathJoin i.p i.f))).length ≠ 1) := by
  have hlist : ∀ i ∈ catalogList catalog, i.h ≠ "" := by
    intro i hi
    obtain ⟨q, hq, rfl⟩ := List.mem_map.mp hi
    exact hwf q hq
  refine ⟨fun sz a b hf hab => findHash_two_entries ex _ sz a b hf hab, ?_, ?_⟩
  · intro file st a b hf hab
    have hval := findHash_two_entries ex _ file.s a b hf hab
    have hbmem : b ∈ catalogList catalog := by
      have : b ∈ (catalogList catalog).filter (fun i => i.s = file.s) := by
        rw [hf]; exact List.mem_cons_of_mem a (List.mem_cons_self b [])
      exact (List.mem_filter.mp this).1
    have hamem : a ∈ catalogList catalog := by
      have : a ∈ (catalogList catalog).filter (fun i => i.s = file.s) := by
        rw [hf]; exact List.mem_cons_self a [b]
      exact (List.mem_filter.mp this).1
    have hne0 : FindHashByFileAndSize ex (catalogList catalog) file.s ≠ "" := by
      rw [hval]
      cases hea : ex (pathJoin a.p a.f)
      · simp only [Bool.false_eq_true, if_false]
        exact hlist a hamem
      · simp only [if_true]
        exact hlist b hbmem
    have hdec : (decide (FindHashByFileAndSize ex (catalogList catalog) file.s = "")) =
        false := by
      simp [hne0]
    simp only [uclStep]
    split_ifs with h1 h2 h3
    all_goals first
      | rfl
      | exact absurd (by assumption) hne0
      | exact (by assumption : False).elim
      | (split <;> simp [hdec])
  · intro file st hinv
    simp only [uclStep] at hinv
    split_ifs at hinv with h1 h2 h3
    all_goals first
      | exact (by assumption : False).elim
      | exact findHash_empty ex _ file.s hlist (by assumption)
      | (have hfe : FindHashByFileAndSize ex (catalogList catalog) file.s = "" := by
           split at hinv <;> exact of_decide_eq_true (by simpa using hinv)
         exact findHash_empty ex _ file.s hlist hfe)

/-- Witness for C9: a catalog with two 5-byte entries, `/live/a.txt` present
on disk and `/miss/b.txt` gone; the resolver deduces `h2` without hashing. -/
theorem C9_reconciliation_witness :
    (∀ q ∈ ([("h1", ⟨"a.txt", "/live", 5⟩), ("h2", ⟨"b.txt", "/miss", 5⟩)] :
      List (String × CatEntry)), q.1 ≠ "") ∧
    FindHashByFileAndSize (fun p => p == "/live/a.txt")
      (catalogList [("h1", ⟨"a.txt", "/live", 5⟩), ("h2", ⟨"b.txt", "/miss", 5⟩)]) 5 =
      "h2" := by
  constructor
  · decide
  · have h := (C9_reconciliation (fun _ => "x") (fun p => p == "/live/a.txt")
      [("h1", ⟨"a.txt", "/live", 5⟩), ("h2", ⟨"b.txt", "/miss", 5⟩)] (by decide)).1
      5 ⟨"h1", "a.txt", "/live", 5⟩ ⟨"h2", "b.txt", "/miss", 5⟩ (by decide) (by decide)
    rw [h]
    decide

/-!
## Claim C10
-/

/-- C10 (confirmed): the work-in-progress document is always written once
more, unconditionally, after the traversal finishes (the last effect of the
scan phase is a WIP write, whatever the checkpoint clock did), and when the
set of records to commit is empty the final phase shows no commit prompt,
writes no catalog document, and its last effect deletes the WIP document. -/
theorem C10_empty_commit :
    (∀ (H : List ℕ → String) (catalog : List (String × CatEntry))
        (resume : List Rec) (files : List FSFile) (tick : ℕ → Bool),
      (cfScanEffects H catalog resume files tick).2.getLast? = some Eff.wipWrite) ∧
    (∀ (ex : String → Bool) (tbr : List String) (nd : List Rec)
        (ansRemove ansCommit : Bool),
      nd.filter (fun i => !tbr.contains (fullp i)) = [] →
      Eff.promptCommit ∉ finalPhase ex tbr nd ansRemove ansCommit ∧
      Eff.catalogWrite ∉ finalPhase ex tbr nd ansRemove ansCommit ∧
      (finalPhase ex tbr nd ansRemove ansCommit).getLast? = some Eff.wipDelete) := by
  constructor
  · intro H catalog resume files tick
    exact List.getLast?_concat _
  · intro ex tbr nd ansRemove ansCommit hempty
    have hcommit : (if 0 < (nd.filter (fun i => !tbr.contains (fullp i))).length then
        [Eff.promptCommit] ++
          (if ansCommit then [Eff.catalogWrite, Eff.wipDelete] else [])
      else [Eff.wipDelete]) = [Eff.wipDelete] := by
      rw [hempty]
      simp
    have hrem : ∀ a ∈ (if 0 < tbr.length then
        [Eff.promptRemove] ++
          (if ansRemove then (tbr.filter ex).map Eff.fileDelete else [])
      else ([] : List Eff)), a = Eff.promptRemove ∨ ∃ p, a = Eff.fileDelete p := by
      intro a ha
      split_ifs at ha with hp hq
      · rcases List.mem_append.mp ha with h | h
        · left; simpa using h
        · obtain ⟨p, _, rfl⟩ := List.mem_map.mp h
          exact Or.inr ⟨p, rfl⟩
      · rcases List.mem_append.mp ha with h | h
        · left; simpa using h
        · cases h
      · cases ha
    simp only [finalPhase]
    rw [hcommit]
    refine ⟨?_, ?_, List.getLast?_concat _⟩
    · intro hmem
      rcases List.mem_append.mp hmem with h | h
      · rcases hrem _ h with h1 | ⟨p, h1⟩
        · exact Eff.noConfusion h1
        · exact Eff.noConfusion h1
      · simp at h
    · intro hmem
      rcases List.mem_append.mp hmem with h | h
      · rcases hrem _ h with h1 | ⟨p, h1⟩
        · exact Eff.noConfusion h1
        · exact Eff.noConfusion h1
      · simp at h

/-- Witness for C10's empty-commit conjunct at concrete inputs. -/
theorem C10_empty_commit_witness :
    (([] : List Rec).filter (fun i => !(["/x"] : List String).contains (fullp i)) = []) ∧
    (finalPhase (fun _ => true) ["/x"] [] true true).getLast? = some Eff.wipDelete :=
  ⟨rfl,
    (C10_empty_commit.2 (fun _ => true) ["/x"] [] true true rfl).2.2⟩

end CatalogTools
